import Mathlib

/-!
Verification of the task-planning core of a small planning tool.

The development shallowly embeds the Python modules `notion_tasks.py`,
`plan.py` and `claude_planner.py`:

* Python strings are modelled as lists of characters (`Str`); string
  methods (`lower`, `strip`, `split`, `splitlines`, `in`, `startswith`)
  are modelled by structurally recursive functions on `List Char`.
* Task and event dictionaries become explicit records (`Task`, `Event`,
  `Page`); `dict.get` with a default becomes `Option.getD`.
* Python's stable `list.sort(key=...)` is modelled by `List.mergeSort`
  (a stable merge sort) applied to the boolean comparison induced by the
  sort key, with Python tuple comparison spelled out lexicographically.
* Impure inputs (`datetime.date.today()`, `datetime.datetime.now()`) are
  passed in as explicit parameters (`today : Int` is a day number,
  times of day are seconds since midnight).

Theorems `C1_…` to `C10_…` settle the frozen claims about the spec.
-/

namespace Planner

/-- Python strings, modelled as their sequence of characters. -/
abbrev Str := List Char

/-- `str.lower()` (character-wise lowering, faithful on ASCII data). -/
def lowerStr (s : Str) : Str := s.map Char.toLower

/-- `str.strip()`: drop whitespace at both ends. -/
def stripStr (s : Str) : Str :=
  ((s.dropWhile Char.isWhitespace).reverse.dropWhile Char.isWhitespace).reverse

/-- `str.split()` with no arguments: split on whitespace runs, no empties. -/
def splitWs (s : Str) : List Str :=
  (List.splitOnP Char.isWhitespace s).filter (fun w => w ≠ [])

/-- `sub in s` on Python strings: contiguous-substring test. -/
def isSubstrOf (sub s : Str) : Bool := decide (sub <:+: s)

/-- `str.splitlines()` restricted to the line breaks `\n`, `\r\n`, `\r`
(the breaks that occur in this program's data). -/
def splitLines : Str → List Str
  | [] => []
  | '\r' :: '\n' :: rest => [] :: splitLines rest
  | '\r' :: rest => [] :: splitLines rest
  | '\n' :: rest => [] :: splitLines rest
  | c :: rest =>
    match splitLines rest with
    | [] => [[c]]
    | l :: ls => (c :: l) :: ls

/-- `"\n".join(lines)`. -/
def joinLines : List Str → Str
  | [] => []
  | l :: ls =>
    match ls with
    | [] => l
    | _ :: _ => l ++ '\n' :: joinLines ls

/-! ### Task records (`notion_tasks.py`) -/

/-- A task dictionary as built by `get_todo_tasks`.  The two deadline
fields are absent until `apply_meeting_deadlines` attaches them. -/
structure Task where
  text : Str
  project : Option Str
  status : Str
  priority : Option Str
  effort : Option Str
  quick : Bool
  deadline_days : Option Int := none
  deadline_event : Option Str := none
deriving DecidableEq, Repr

/-- The dictionary `{"actionable": [...], "pending": [...]}` returned by
`get_todo_tasks` and threaded through the pipeline. -/
structure Tasks where
  actionable : List Task
  pending : List Task
deriving DecidableEq, Repr

/-- The fields of one Notion page that `get_todo_tasks` reads (after the
property plumbing of `get_title` / `get_select`): the extracted title
text and the raw select values, `none` when unset. -/
structure Page where
  title : Str
  project : Option Str
  status : Option Str
  priority : Option Str
  effort : Option Str
  quick : Bool
deriving DecidableEq, Repr

/-- `PRIORITY_ORDER = {"high": 0, "medium": 1, "low": 2}` as a lookup. -/
def PRIORITY_ORDER (s : Str) : Option Nat :=
  if s = (r"high").data then some 0
  else if s = (r"medium").data then some 1
  else if s = (r"low").data then some 2
  else none

/-- `EFFORT_ORDER = {"high": 0, "medium": 1, "low": 2}` as a lookup. -/
def EFFORT_ORDER (s : Str) : Option Nat :=
  if s = (r"high").data then some 0
  else if s = (r"medium").data then some 1
  else if s = (r"low").data then some 2
  else none

/-- `PRIORITY_ORDER.get(x, 9)` where `x` may be `None`. -/
def priorityRank (p : Option Str) : Nat :=
  match p with
  | none => 9
  | some s => (PRIORITY_ORDER s).getD 9

/-- `EFFORT_ORDER.get(x, 9)` where `x` may be `None`. -/
def effortRank (e : Option Str) : Nat :=
  match e with
  | none => 9
  | some s => (EFFORT_ORDER s).getD 9

/-- Python `x or ""` for an optional string: `None` and `""` give `""`. -/
def orEmpty (o : Option Str) : Str :=
  match o with
  | none => []
  | some s => s

/-- Python `s or None` for a string: `""` becomes `None`. -/
def noneIfEmpty (s : Str) : Option Str :=
  if s = [] then none else some s

/-- The task dictionary built for one page inside `get_todo_tasks`
(title extraction strips the text; status is lowered with `""` for
absent; priority/effort are lowered with `""` collapsed to `None`). -/
def makeTask (p : Page) : Task :=
  { text := stripStr p.title
    project := p.project
    status := lowerStr (orEmpty p.status)
    priority := noneIfEmpty (lowerStr (orEmpty p.priority))
    effort := noneIfEmpty (lowerStr (orEmpty p.effort))
    quick := p.quick }

/-- The key tuple `(PRIORITY_ORDER.get(priority, 9), EFFORT_ORDER.get(effort, 9))`
used by the sort at the end of `get_todo_tasks`. -/
def baseKey (t : Task) : Nat × Nat := (priorityRank t.priority, effortRank t.effort)

/-- Python tuple `<=` on the base key (lexicographic). -/
def baseKeyLe (a b : Task) : Bool :=
  decide ((baseKey a).1 < (baseKey b).1 ∨
    ((baseKey a).1 = (baseKey b).1 ∧ (baseKey a).2 ≤ (baseKey b).2))

/-- `get_todo_tasks`: build a task per page with a non-empty title, split
by status (`"pending"` vs the rest), and stably sort the actionable list
by priority then effort. -/
def get_todo_tasks (pages : List Page) : Tasks :=
  let parsed := pages.filterMap (fun p =>
    let t := makeTask p
    if t.text = [] then none else some t)
  { actionable :=
      (parsed.filter (fun t => t.status ≠ (r"pending").data)).mergeSort baseKeyLe
    pending := parsed.filter (fun t => t.status = (r"pending").data) }

/-! ### Calendar events and the planning pipeline (`plan.py`) -/

/-- An event dictionary as produced by `gcal_events.fetch_events`, with
the date/time parsing abstracted: `startDay` is the day number of the
event's (local) start date and `startSec` the seconds-since-midnight of
its start time (meaningless for all-day events). -/
structure Event where
  summary : Str
  all_day : Bool
  startDay : Int
  startSec : Nat
deriving DecidableEq, Repr

/-- `_STOP_WORDS`: short words ignored when matching projects to events. -/
def STOP_WORDS : List Str :=
  [(r"and").data, (r"the").data, (r"for").data, (r"with").data, (r"from").data,
   (r"into").data, (r"work").data, (r"call").data, (r"meeting").data, (r"telecon").data]

/-- `_keywords`: lowercase, normalise hyphens/underscores to spaces,
split on whitespace, keep words of length ≥ 3 that are not stop words.
(The Python function returns a set; the claims only use membership and
non-empty intersection, for which this list is equivalent.) -/
def keywords (text : Str) : List Str :=
  (splitWs ((lowerStr text).map (fun c =>
    if c = '-' then ' ' else if c = '_' then ' ' else c))).filter
    (fun w => 3 ≤ w.length ∧ w ∉ STOP_WORDS)

/-- `proj_keywords & ev_keywords` tested for non-emptiness. -/
def keywordOverlap (a b : List Str) : Bool := a.any (fun w => b.contains w)

/-- The `event_entries` list of `apply_meeting_deadlines`:
`(days_away, event_keywords, event_summary)` for events with
`days_away >= 0`, in input order. -/
def eventEntries (today : Int) (events : List Event) : List (Int × List Str × Str) :=
  events.filterMap (fun ev =>
    let days_away := ev.startDay - today
    if days_away < 0 then none
    else some (days_away, keywords ev.summary, ev.summary))

/-- The inner loop of `apply_meeting_deadlines` computing the soonest
matching meeting: `acc` carries `(soonest_days, soonest_name)`. -/
def soonestAux (pk : List Str) :
    List (Int × List Str × Str) → Option (Int × Str) → Option (Int × Str)
  | [], acc => acc
  | e :: rest, acc =>
    soonestAux pk rest
      (if keywordOverlap pk e.2.1 then
        match acc with
        | none => some (e.1, e.2.2)
        | some (sd, sn) => if e.1 < sd then some (e.1, e.2.2) else some (sd, sn)
      else acc)

/-- Annotation of one actionable task inside `apply_meeting_deadlines`:
if the task's project keywords overlap some entry, attach the soonest
entry's `days_away` and summary as `deadline_days`/`deadline_event`. -/
def annotateTask (entries : List (Int × List Str × Str)) (t : Task) : Task :=
  let proj_keywords := keywords (orEmpty t.project)
  if proj_keywords = [] then t
  else
    match soonestAux proj_keywords entries none with
    | none => t
    | some (d, n) => { t with deadline_days := some d, deadline_event := some n }

/-- The ranking key of the final sort in `apply_meeting_deadlines`:
`(PRIORITY_ORDER.get(priority, 9), deadline_days or 999, EFFORT_ORDER.get(effort, 9))`. -/
def rankKey (t : Task) : Nat × Int × Nat :=
  (priorityRank t.priority, t.deadline_days.getD 999, effortRank t.effort)

/-- Python tuple `<=` on ranking keys (lexicographic). -/
def rankKeyLe (a b : Task) : Bool :=
  decide ((rankKey a).1 < (rankKey b).1 ∨
    ((rankKey a).1 = (rankKey b).1 ∧
      ((rankKey a).2.1 < (rankKey b).2.1 ∨
        ((rankKey a).2.1 = (rankKey b).2.1 ∧ (rankKey a).2.2 ≤ (rankKey b).2.2))))

/-- The Task Ranker: Python's stable `list.sort` keyed on `rankKey`. -/
def sortTasks (l : List Task) : List Task := l.mergeSort rankKeyLe

/-- `apply_meeting_deadlines`: annotate each actionable task with its
soonest matching upcoming meeting, then re-sort the actionable list by
(priority, deadline, effort).  `today` stands for `datetime.date.today()`. -/
def apply_meeting_deadlines (today : Int) (tasks : Tasks) (upcoming_events : List Event) :
    Tasks :=
  let entries := eventEntries today upcoming_events
  { tasks with actionable := sortTasks (tasks.actionable.map (annotateTask entries)) }

/-! ### Next-task selection (`plan.py`, `next_task`) -/

/-- `EFFORT_MIN_MINUTES = {"high": 90, "medium": 45, "low": 1}`. -/
def EFFORT_MIN_MINUTES (s : Str) : Option Int :=
  if s = (r"high").data then some 90
  else if s = (r"medium").data then some 45
  else if s = (r"low").data then some 1
  else none

/-- The minutes floor computed for one task in `next_task`: 15 when
`quick`, else `EFFORT_MIN_MINUTES.get(task.get("effort") or "low", 1)`. -/
def minNeeded (t : Task) : Int :=
  if t.quick then 15
  else
    let effort := match t.effort with
      | none => (r"low").data
      | some s => if s = [] then (r"low").data else s
    (EFFORT_MIN_MINUTES effort).getD 1

/-- Python `<=` on strings (lexicographic by code point). -/
def strLe : Str → Str → Bool
  | [], _ => true
  | _ :: _, [] => false
  | a :: as, b :: bs => if a < b then true else if b < a then false else strLe as bs

/-- Python `<=` on `(time, summary)` pairs, as used by `upcoming.sort()`. -/
def timeNameLe (x y : Nat × Str) : Bool :=
  if x.1 < y.1 then true else if y.1 < x.1 then false else strLe x.2 y.2

/-- The `upcoming` list of `next_task`: `(start time, summary)` of every
timed event of today that starts strictly after the current moment, in
input order. -/
def upcomingMeetings (events : List Event) (today : Int) (nowSec : Nat) :
    List (Nat × Str) :=
  events.filterMap (fun ev =>
    if !ev.all_day ∧ ev.startDay = today ∧ nowSec < ev.startSec then
      some (ev.startSec, ev.summary)
    else none)

/-- The session deadline of `next_task`: the first upcoming meeting if it
starts no later than the leave time, else the leave time. -/
def sessionDeadline (events : List Event) (today : Int) (nowSec leaveSec : Nat) : Nat :=
  match (upcomingMeetings events today nowSec).mergeSort timeNameLe with
  | [] => leaveSec
  | (t, _) :: _ => if t ≤ leaveSec then t else leaveSec

/-- `available_mins = int((deadline_dt - now_dt).total_seconds() / 60)`:
whole minutes between now and the deadline, truncated toward zero. -/
def availableMins (events : List Event) (today : Int) (nowSec leaveSec : Nat) : Int :=
  Int.tdiv ((sessionDeadline events today nowSec leaveSec : Int) - (nowSec : Int)) 60

/-- Outcome of `next_task` (the three ways its printing can end). -/
inductive NextResult where
  | noTime : NextResult
  | noFit : NextResult
  | suggestion : Task → NextResult
deriving DecidableEq, Repr

/-- The scan of `next_task` over the ranked actionable list: first task
whose minutes floor fits in the available time. -/
def findFit (available : Int) : List Task → Option Task
  | [] => none
  | t :: rest => if minNeeded t ≤ available then some t else findFit available rest

/-- `next_task`: report `noTime` when no whole minute is available before
the session deadline, otherwise suggest the first ranked actionable task
that fits, and `noFit` when none does. -/
def next_task (tasks : Tasks) (leaveSec : Nat) (events : List Event)
    (today : Int) (nowSec : Nat) : NextResult :=
  let available := availableMins events today nowSec leaveSec
  if available ≤ 0 then .noTime
  else
    match findFit available tasks.actionable with
    | some t => .suggestion t
    | none => .noFit

/-! ### Plan post-processing (`claude_planner.py`) -/

/-- The checkbox marker `"- [ ]"` that distinguishes task lines. -/
def checkboxMarker : Str := (r"- [ ]").data

/-- The metadata prefix `"(priority:"` stripped before matching. -/
def priorityPat : Str := (r"(priority:").data

/-- `line.split("—", 1)`: the text before the first em dash and the text
after it (the pair is only used when the line contains an em dash). -/
def splitDash : Str → Str × Str
  | [] => ([], [])
  | c :: rest =>
    if c = '—' then ([], rest)
    else
      let pr := splitDash rest
      (c :: pr.1, pr.2)

/-- `s.split(pat)[0]`: the text before the first occurrence of `pat`
(the whole string when `pat` does not occur). -/
def takeBeforePat (pat : Str) : Str → Str
  | [] => []
  | c :: rest =>
    if pat.isPrefixOf (c :: rest) then []
    else c :: takeBeforePat pat rest

/-- The inner lookup loop of `reinsert_project_tags`: first entry whose
task text contains or is contained in the cleaned description. -/
def findTagMatch (clean : Str) : List (Str × Str) → Option Str
  | [] => none
  | (task_text, tag) :: rest =>
    if isSubstrOf task_text clean || isSubstrOf clean task_text then some tag
    else findTagMatch clean rest

/-- One iteration of the line loop of `reinsert_project_tags`. -/
def processLine (tag_lookup : List (Str × Str)) (line : Str) : Str :=
  if checkboxMarker.isPrefixOf (stripStr line) ∧ line.contains '—' then
    let after_dash := stripStr (splitDash line).2
    if ['['].isPrefixOf after_dash then line
    else
      let clean := stripStr (takeBeforePat priorityPat (lowerStr after_dash))
      match findTagMatch clean tag_lookup with
      | none => line
      | some tag =>
        (splitDash line).1 ++ '—' :: ' ' :: (tag ++ ' ' :: stripStr (splitDash line).2)
  else line

/-- `reinsert_project_tags`: rewrite each task line lacking a leading
bracketed tag, joining the processed lines with `"\n"`; an empty lookup
returns the text unchanged.  The lookup dictionary is modelled as an
association list in its iteration (= insertion) order. -/
def reinsert_project_tags (plan_text : Str) (tag_lookup : List (Str × Str)) : Str :=
  if tag_lookup = [] then plan_text
  else joinLines ((splitLines plan_text).map (processLine tag_lookup))

/-- `build_tag_lookup`: lowercased task text mapped to `"[{project}]"`,
for every actionable-or-pending task with a non-`None`, non-empty project
(Python's truthiness test on the project string). -/
def build_tag_lookup (tasks : Tasks) : List (Str × Str) :=
  (tasks.actionable ++ tasks.pending).filterMap (fun t =>
    match t.project with
    | none => none
    | some p => if p = [] then none else some (lowerStr t.text, '[' :: (p ++ [']'])))

/-- The events a given task's project matches: upcoming (non-negative
days from today) with overlapping keyword sets. -/
def matchingEvents (today : Int) (events : List Event) (t : Task) : List Event :=
  events.filter (fun ev =>
    decide (0 ≤ ev.startDay - today) &&
      keywordOverlap (keywords (orEmpty t.project)) (keywords ev.summary))

/-- Line-break normalisation implicit in `splitlines` + `"\n".join`:
`\r\n` and `\r` become `\n`. -/
def normalizeBreaks : Str → Str
  | [] => []
  | '\r' :: '\n' :: rest => '\n' :: normalizeBreaks rest
  | '\r' :: rest => '\n' :: normalizeBreaks rest
  | '\n' :: rest => '\n' :: normalizeBreaks rest
  | c :: rest => c :: normalizeBreaks rest

/-- Dropping one final `\n` if present (the final line terminator that
`splitlines` ignores and `"\n".join` does not restore). -/
def dropTrailingNewline (s : Str) : Str :=
  if s.getLast? = some '\n' then s.dropLast else s

/-! ### Concrete data for the witness instances -/

/-- The spec's running example task. -/
def sampleTask : Task :=
  { text := (r"Draft paper").data, project := some (r"COSMOS-Web").data,
    status := (r"actionable").data, priority := some (r"high").data,
    effort := some (r"high").data, quick := false }

/-- A quick-flagged task with no effort label. -/
def sampleQuickTask : Task :=
  { text := (r"Reply to referee").data, project := none,
    status := (r"actionable").data, priority := none, effort := none, quick := true }

/-- A non-quick high-effort task. -/
def sampleHighTask : Task :=
  { text := (r"Analyse simulations").data, project := none,
    status := (r"actionable").data, priority := none,
    effort := some (r"high").data, quick := false }

/-- The spec's running example event, three days out. -/
def sampleEvent : Event :=
  { summary := (r"COSMOS-Web telecon").data, all_day := false,
    startDay := 3, startSec := 3600 }

/-- A raw page whose parsed task is the example task. -/
def samplePage : Page :=
  { title := (r"Draft paper").data, project := some (r"COSMOS-Web").data,
    status := some (r"Actionable").data, priority := some (r"High").data,
    effort := some (r"High").data, quick := false }

/-- The spec's example tag lookup. -/
def sampleLookup : List (Str × Str) :=
  [((r"draft paper").data, (r"[COSMOS-Web]").data)]

/-- The spec's example plan line, tag dropped. -/
def samplePlanLine : Str :=
  (r"- [ ] 10:00–11:00 — Draft paper (priority: high, effort: high)").data

/-- The spec's example plan line with the tag re-inserted. -/
def samplePlanLineTagged : Str :=
  (r"- [ ] 10:00–11:00 — [COSMOS-Web] Draft paper (priority: high, effort: high)").data

/-- A task line the reconciler tags on the first pass. -/
def sampleUntaggedLine : Str := (r"- [ ] 9:00 — draft paper").data

/-! ### Generic facts about the ranking comparisons -/

theorem rankKeyLe_trans (a b c : Task) (h1 : rankKeyLe a b) (h2 : rankKeyLe b c) :
    rankKeyLe a c = true := by
  simp only [rankKeyLe, decide_eq_true_eq] at h1 h2 ⊢
  omega

theorem rankKeyLe_total (a b : Task) : rankKeyLe a b || rankKeyLe b a := by
  simp only [rankKeyLe, Bool.or_eq_true, decide_eq_true_eq]
  omega

theorem sortTasks_sorted (l : List Task) :
    (sortTasks l).Pairwise (fun a b => rankKeyLe a b = true) :=
  List.sorted_mergeSort (fun a b c => rankKeyLe_trans a b c) rankKeyLe_total l

theorem sortTasks_perm (l : List Task) : List.Perm (sortTasks l) l :=
  List.mergeSort_perm l rankKeyLe

/-- C1: the Task Ranker's output is sorted in ascending lexicographic
order of the key tuple (priority rank, deadline rank, effort rank), the
key being exactly (high↦0, medium↦1, low↦2, otherwise 9; deadline_days
or 999), and it is a permutation of the annotated task collection. -/
theorem C1_ranker_sorted_by_key (today : Int) (tasks : Tasks) (events : List Event) :
    ((apply_meeting_deadlines today tasks events).actionable).Pairwise
      (fun a b => (rankKey a).1 < (rankKey b).1 ∨
        ((rankKey a).1 = (rankKey b).1 ∧
          ((rankKey a).2.1 < (rankKey b).2.1 ∨
            ((rankKey a).2.1 = (rankKey b).2.1 ∧ (rankKey a).2.2 ≤ (rankKey b).2.2)))) ∧
    List.Perm (apply_meeting_deadlines today tasks events).actionable
      (tasks.actionable.map (annotateTask (eventEntries today events))) ∧
    (∀ t : Task, rankKey t =
      ((if t.priority = some (r"high").data then 0
        else if t.priority = some (r"medium").data then 1
        else if t.priority = some (r"low").data then 2 else 9),
       (match t.deadline_days with
        | some d => d
        | none => 999),
       (if t.effort = some (r"high").data then 0
        else if t.effort = some (r"medium").data then 1
        else if t.effort = some (r"low").data then 2 else 9))) := by
  refine ⟨?_, ?_, ?_⟩
  · have h := sortTasks_sorted (tasks.actionable.map (annotateTask (eventEntries today events)))
    refine List.Pairwise.imp ?_ h
    intro a b hab
    simpa only [rankKeyLe, decide_eq_true_eq] using hab
  · exact sortTasks_perm _
  · rintro ⟨tt, tp, ts, tpr, te, tq, td, tde⟩
    refine Prod.ext ?_ (Prod.ext ?_ ?_)
    · rcases tpr with _ | s
      · simp [rankKey, priorityRank]
      · simp only [rankKey, priorityRank, PRIORITY_ORDER, Option.some.injEq]
        split_ifs <;> simp_all
    · rcases td with _ | d <;> simp [rankKey]
    · rcases te with _ | s
      · simp [rankKey, effortRank]
      · simp only [rankKey, effortRank, EFFORT_ORDER, Option.some.injEq]
        split_ifs <;> simp_all

/-- Tasks with one fixed key, in order, are unchanged by the sort. -/
theorem sortTasks_stable_filter (l : List Task) (k : Nat × Int × Nat) :
    (sortTasks l).filter (fun t => rankKey t = k) = l.filter (fun t => rankKey t = k) := by
  have hsub : List.Sublist (l.filter (fun t => rankKey t = k)) (sortTasks l) := by
    apply List.sublist_mergeSort (fun a b c => rankKeyLe_trans a b c) rankKeyLe_total
    · refine List.pairwise_of_forall_mem_list ?_
      intro a ha b hb
      have ha' := (List.mem_filter.mp ha).2
      have hb' := (List.mem_filter.mp hb).2
      simp only [decide_eq_true_eq] at ha' hb'
      simp only [rankKeyLe, decide_eq_true_eq, ha', hb']
      exact Or.inr ⟨trivial, Or.inr ⟨trivial, le_refl _⟩⟩
    · exact List.filter_sublist l
  have hsub2 : List.Sublist (l.filter (fun t => rankKey t = k))
      ((sortTasks l).filter (fun t => rankKey t = k)) := by
    have := hsub.filter (fun t => decide (rankKey t = k))
    rwa [List.filter_filter, (by
      funext t
      simp : (fun t => (decide (rankKey t = k) && decide (rankKey t = k))) =
        (fun t => decide (rankKey t = k)))] at this
  have hperm : List.Perm ((sortTasks l).filter (fun t => rankKey t = k))
      (l.filter (fun t => rankKey t = k)) :=
    (sortTasks_perm l).filter _
  exact (hsub2.eq_of_length hperm.length_eq.symm).symm

/-- C2: the Task Ranker is stable (tasks with one and the same key keep
their relative input order: filtering the output at any fixed key value
returns exactly the input's subsequence at that key) and idempotent
(re-sorting the sorted output returns it unchanged). -/
theorem C2_ranker_stable_idempotent (l : List Task) :
    (∀ k : Nat × Int × Nat,
      (sortTasks l).filter (fun t => rankKey t = k) = l.filter (fun t => rankKey t = k)) ∧
    sortTasks (sortTasks l) = sortTasks l := by
  constructor
  · exact fun k => sortTasks_stable_filter l k
  · exact List.mergeSort_of_sorted (sortTasks_sorted l)

/-! ### Pending exclusion and the deadline-fields invariant -/

theorem annotateTask_status (entries : List (Int × List Str × Str)) (t : Task) :
    (annotateTask entries t).status = t.status := by
  unfold annotateTask
  by_cases h : keywords (orEmpty t.project) = []
  · simp [h]
  · simp only [h, if_false]
    rcases soonestAux (keywords (orEmpty t.project)) entries none with _ | ⟨d, n⟩ <;> simp

theorem findFit_mem (a : Int) (l : List Task) (t : Task) (h : findFit a l = some t) :
    t ∈ l := by
  induction l with
  | nil => simp [findFit] at h
  | cons x rest ih =>
    simp only [findFit] at h
    by_cases hf : minNeeded x ≤ a
    · simp only [hf, if_true, Option.some.injEq] at h
      exact h ▸ List.mem_cons_self x rest
    · simp only [hf, if_false] at h
      exact List.mem_cons_of_mem x (ih h)

theorem mem_actionable_status (pages : List Page) (t : Task)
    (h : t ∈ (get_todo_tasks pages).actionable) : t.status ≠ (r"pending").data := by
  simp only [get_todo_tasks, List.mem_mergeSort, List.mem_filter] at h
  simpa using h.2

/-- C3: tasks with status `"pending"` never appear in the ranked
actionable output of the Task Ranker or the Deadline Annotator, nor as a
Next-Task Selector suggestion, and every parsed task (non-empty title)
whose status is not `"pending"` lands in the actionable list. -/
theorem C3_pending_excluded (pages : List Page) (events : List Event)
    (today : Int) (leaveSec nowSec : Nat) :
    (∀ t ∈ (get_todo_tasks pages).actionable, t.status ≠ (r"pending").data) ∧
    (∀ t ∈ (apply_meeting_deadlines today (get_todo_tasks pages) events).actionable,
      t.status ≠ (r"pending").data) ∧
    (∀ t : Task,
      next_task (apply_meeting_deadlines today (get_todo_tasks pages) events)
          leaveSec events today nowSec = .suggestion t →
      t.status ≠ (r"pending").data) ∧
    (∀ p ∈ pages, stripStr p.title ≠ [] → (makeTask p).status ≠ (r"pending").data →
      makeTask p ∈ (get_todo_tasks pages).actionable) := by
  have step2 : ∀ t ∈ (apply_meeting_deadlines today (get_todo_tasks pages) events).actionable,
      t.status ≠ (r"pending").data := by
    intro t ht
    simp only [apply_meeting_deadlines] at ht
    have ht' := (sortTasks_perm _).mem_iff.mp ht
    obtain ⟨t0, ht0, rfl⟩ := List.mem_map.mp ht'
    rw [annotateTask_status]
    exact mem_actionable_status pages t0 ht0
  refine ⟨fun t ht => mem_actionable_status pages t ht, step2, ?_, ?_⟩
  · intro t ht
    simp only [next_task] at ht
    by_cases hav : availableMins events today nowSec leaveSec ≤ 0
    · simp [hav] at ht
    · simp only [hav, if_false] at ht
      rcases hf : findFit (availableMins events today nowSec leaveSec)
          (apply_meeting_deadlines today (get_todo_tasks pages) events).actionable with _ | t'
      · rw [hf] at ht; simp at ht
      · rw [hf] at ht
        simp only [NextResult.suggestion.injEq] at ht
        exact ht ▸ step2 t' (findFit_mem _ _ _ hf)
  · intro p hp htitle hstat
    simp only [get_todo_tasks, List.mem_mergeSort, List.mem_filter]
    refine ⟨List.mem_filterMap.mpr ⟨p, hp, by simp [makeTask, htitle]⟩, by simpa using hstat⟩

theorem annotateTask_deadline_inv (entries : List (Int × List Str × Str)) (t : Task)
    (h : t.deadline_days.isSome = t.deadline_event.isSome) :
    (annotateTask entries t).deadline_days.isSome
      = (annotateTask entries t).deadline_event.isSome := by
  unfold annotateTask
  by_cases hk : keywords (orEmpty t.project) = []
  · simpa [hk] using h
  · simp only [hk, if_false]
    rcases soonestAux (keywords (orEmpty t.project)) entries none with _ | ⟨d, n⟩
    · simpa using h
    · simp

/-- C4: `deadline_days` is set iff `deadline_event` is set — the fields
are both absent on every task produced by `get_todo_tasks`, and the
Deadline Annotator preserves the biconditional on every collection that
satisfies it (it only ever sets the two fields together). -/
theorem C4_deadline_fields_together (today : Int) (tasks : Tasks) (events : List Event)
    (h : ∀ t ∈ tasks.actionable, t.deadline_days.isSome = t.deadline_event.isSome) :
    (∀ t ∈ (apply_meeting_deadlines today tasks events).actionable,
      t.deadline_days.isSome = t.deadline_event.isSome) ∧
    (apply_meeting_deadlines today tasks events).pending = tasks.pending ∧
    (∀ pages : List Page,
      ∀ t ∈ (get_todo_tasks pages).actionable ++ (get_todo_tasks pages).pending,
        t.deadline_days = none ∧ t.deadline_event = none) := by
  refine ⟨?_, rfl, ?_⟩
  · intro t ht
    simp only [apply_meeting_deadlines] at ht
    have ht' := (sortTasks_perm _).mem_iff.mp ht
    obtain ⟨t0, ht0, rfl⟩ := List.mem_map.mp ht'
    exact annotateTask_deadline_inv _ t0 (h t0 ht0)
  · intro pages t ht
    have hparsed : t ∈ pages.filterMap (fun p =>
        let t := makeTask p
        if t.text = [] then none else some t) := by
      rcases List.mem_append.mp ht with h1 | h1
      · simp only [get_todo_tasks, List.mem_mergeSort, List.mem_filter] at h1
        exact h1.1
      · simp only [get_todo_tasks, List.mem_filter] at h1
        exact h1.1
    obtain ⟨p, _, hmk⟩ := List.mem_filterMap.mp hparsed
    by_cases he : (makeTask p).text = []
    · simp [he] at hmk
    · simp only [he, if_false, Option.some.injEq] at hmk
      rw [← hmk]
      simp [makeTask]

/-! ### The soonest-matching-meeting computation -/

theorem soonestAux_of_acc_some (pk : List Str) (l : List (Int × List Str × Str))
    (x : Int × Str) : (soonestAux pk l (some x)).isSome := by
  induction l generalizing x with
  | nil => simp [soonestAux]
  | cons e rest ih =>
    simp only [soonestAux]
    by_cases h : keywordOverlap pk e.2.1
    · simp only [h, if_true]
      rcases x with ⟨sd, sn⟩
      by_cases hlt : e.1 < sd <;> simp [hlt, ih]
    · simp [h, ih]

theorem soonestAux_isSome_of_match (pk : List Str) (l : List (Int × List Str × Str))
    (acc : Option (Int × Str)) (h : ∃ e ∈ l, keywordOverlap pk e.2.1) :
    (soonestAux pk l acc).isSome := by
  induction l generalizing acc with
  | nil => simp at h
  | cons e rest ih =>
    simp only [soonestAux]
    by_cases he : keywordOverlap pk e.2.1
    · simp only [he, if_true]
      rcases acc with _ | x
      · exact soonestAux_of_acc_some pk rest _
      · rcases x with ⟨sd, sn⟩
        by_cases hlt : e.1 < sd <;> simp [hlt, soonestAux_of_acc_some]
    · rcases h with ⟨e', he', hov⟩
      rcases List.mem_cons.mp he' with rfl | hmem
      · exact absurd hov (by simp [he])
      · simp only [he, if_false]
        exact ih acc ⟨e', hmem, hov⟩

theorem soonestAux_source (pk : List Str) (l : List (Int × List Str × Str))
    (acc : Option (Int × Str)) (d : Int) (s : Str)
    (h : soonestAux pk l acc = some (d, s)) :
    acc = some (d, s) ∨ ∃ e ∈ l, keywordOverlap pk e.2.1 ∧ e.1 = d ∧ e.2.2 = s := by
  induction l generalizing acc with
  | nil => exact Or.inl (by simpa [soonestAux] using h)
  | cons e rest ih =>
    simp only [soonestAux] at h
    by_cases he : keywordOverlap pk e.2.1
    · simp only [he, if_true] at h
      rcases acc with _ | ⟨sd, sn⟩
      · rcases ih _ h with h' | ⟨e', he', h1, h2, h3⟩
        · obtain ⟨hd, hs⟩ : d = e.1 ∧ s = e.2.2 := by simpa using h'.symm
          exact Or.inr ⟨e, List.mem_cons_self e rest, he, hd.symm, hs.symm⟩
        · exact Or.inr ⟨e', List.mem_cons_of_mem e he', h1, h2, h3⟩
      · by_cases hlt : e.1 < sd
        · simp only [hlt, if_true] at h
          rcases ih _ h with h' | ⟨e', he', h1, h2, h3⟩
          · obtain ⟨hd, hs⟩ : d = e.1 ∧ s = e.2.2 := by simpa using h'.symm
            exact Or.inr ⟨e, List.mem_cons_self e rest, he, hd.symm, hs.symm⟩
          · exact Or.inr ⟨e', List.mem_cons_of_mem e he', h1, h2, h3⟩
        · simp only [hlt, if_false] at h
          rcases ih _ h with h' | ⟨e', he', h1, h2, h3⟩
          · obtain ⟨hd, hs⟩ : d = sd ∧ s = sn := by simpa using h'.symm
            exact Or.inl (by rw [hd, hs])
          · exact Or.inr ⟨e', List.mem_cons_of_mem e he', h1, h2, h3⟩
    · simp only [he, if_false] at h
      rcases ih _ h with h' | ⟨e', he', h1, h2, h3⟩
      · exact Or.inl h'
      · exact Or.inr ⟨e', List.mem_cons_of_mem e he', h1, h2, h3⟩

theorem soonestAux_le_acc (pk : List Str) (l : List (Int × List Str × Str))
    (acc : Option (Int × Str)) (d : Int) (s : Str)
    (h : soonestAux pk l acc = some (d, s)) :
    ∀ d0 s0, acc = some (d0, s0) → d ≤ d0 := by
  induction l generalizing acc with
  | nil =>
    intro d0 s0 hacc
    simp only [soonestAux] at h
    rw [hacc] at h
    simp only [Option.some.injEq, Prod.mk.injEq] at h
    omega
  | cons e rest ih =>
    intro d0 s0 hacc
    subst hacc
    simp only [soonestAux] at h
    by_cases he : keywordOverlap pk e.2.1
    · simp only [he, if_true] at h
      by_cases hlt : e.1 < d0
      · simp only [hlt, if_true] at h
        have := ih _ h e.1 _ rfl
        omega
      · simp only [hlt, if_false] at h
        exact ih _ h d0 _ rfl
    · simp only [he, if_false] at h
      exact ih _ h d0 _ rfl

theorem soonestAux_lower_bound (pk : List Str) (l : List (Int × List Str × Str))
    (acc : Option (Int × Str)) (d : Int) (s : Str)
    (h : soonestAux pk l acc = some (d, s)) :
    ∀ e ∈ l, keywordOverlap pk e.2.1 → d ≤ e.1 := by
  induction l generalizing acc with
  | nil => simp
  | cons e rest ih =>
    intro e' he' hov
    simp only [soonestAux] at h
    rcases List.mem_cons.mp he' with rfl | hmem
    · by_cases he : keywordOverlap pk e'.2.1
      · simp only [he, if_true] at h
        rcases acc with _ | ⟨sd, sn⟩
        · exact soonestAux_le_acc pk rest _ d s h e'.1 _ rfl
        · by_cases hlt : e'.1 < sd
          · simp only [hlt, if_true] at h
            exact soonestAux_le_acc pk rest _ d s h e'.1 _ rfl
          · simp only [hlt, if_false] at h
            have := soonestAux_le_acc pk rest _ d s h sd _ rfl
            omega
      · exact absurd hov (by simp [he])
    · by_cases he : keywordOverlap pk e.2.1
      · simp only [he, if_true] at h
        rcases acc with _ | ⟨sd, sn⟩
        · exact ih _ h e' hmem hov
        · by_cases hlt : e.1 < sd <;> simp only [hlt, if_true, if_false] at h <;>
            exact ih _ h e' hmem hov
      · simp only [he, if_false] at h
        exact ih _ h e' hmem hov

theorem soonestAux_no_match (pk : List Str) (l : List (Int × List Str × Str))
    (acc : Option (Int × Str)) (h : ∀ e ∈ l, keywordOverlap pk e.2.1 = false) :
    soonestAux pk l acc = acc := by
  induction l generalizing acc with
  | nil => rfl
  | cons e rest ih =>
    simp only [soonestAux, h e (List.mem_cons_self e rest)]
    simp only [Bool.false_eq_true, if_false]
    exact ih _ (fun e' he' => h e' (List.mem_cons_of_mem e he'))

theorem mem_eventEntries (today : Int) (events : List Event)
    (e : Int × List Str × Str) :
    e ∈ eventEntries today events ↔
      ∃ ev ∈ events, ¬(ev.startDay - today < 0) ∧
        e = (ev.startDay - today, keywords ev.summary, ev.summary) := by
  simp only [eventEntries, List.mem_filterMap]
  constructor
  · rintro ⟨ev, hev, hsome⟩
    by_cases hneg : ev.startDay - today < 0
    · simp [hneg] at hsome
    · simp only [hneg, if_false, Option.some.injEq] at hsome
      exact ⟨ev, hev, hneg, hsome.symm⟩
  · rintro ⟨ev, hev, hneg, rfl⟩
    exact ⟨ev, hev, by simp [hneg]⟩

/-- C5: when a task's project keywords overlap those of at least one
upcoming event with non-negative days-from-today, the Deadline Annotator
attaches `deadline_days` equal to the smallest such days-from-today and
`deadline_event` equal to such an event's summary; with no matching
event (in particular negative-days events never match) the task is
unchanged, and a task with an absent or empty project is unchanged. -/
theorem C5_annotator_attaches_soonest (today : Int) (events : List Event) (t : Task) :
    (matchingEvents today events t ≠ [] →
      ∃ d s, (annotateTask (eventEntries today events) t).deadline_days = some d ∧
        (annotateTask (eventEntries today events) t).deadline_event = some s ∧
        (∃ ev ∈ matchingEvents today events t, ev.startDay - today = d ∧ ev.summary = s) ∧
        (∀ ev ∈ matchingEvents today events t, d ≤ ev.startDay - today)) ∧
    (matchingEvents today events t = [] → annotateTask (eventEntries today events) t = t) ∧
    ((t.project = none ∨ t.project = some []) → annotateTask (eventEntries today events) t = t) := by
  have hkwnil : keywords ([] : Str) = [] := by decide
  have hov_entry : ∀ e ∈ eventEntries today events,
      keywordOverlap (keywords (orEmpty t.project)) e.2.1 = true →
      ∃ ev ∈ matchingEvents today events t, ev.startDay - today = e.1 ∧ ev.summary = e.2.2 := by
    intro e he hov
    obtain ⟨ev, hev, hneg, rfl⟩ := (mem_eventEntries today events e).mp he
    refine ⟨ev, ?_, rfl, rfl⟩
    simp only [matchingEvents, List.mem_filter, Bool.and_eq_true, decide_eq_true_eq]
    exact ⟨hev, by omega, hov⟩
  have hmatch_entry : ∀ ev ∈ matchingEvents today events t,
      (ev.startDay - today, keywords ev.summary, ev.summary) ∈ eventEntries today events ∧
      keywordOverlap (keywords (orEmpty t.project)) (keywords ev.summary) = true := by
    intro ev hev
    simp only [matchingEvents, List.mem_filter, Bool.and_eq_true, decide_eq_true_eq] at hev
    exact ⟨(mem_eventEntries today events _).mpr ⟨ev, hev.1, by omega, rfl⟩, hev.2.2⟩
  refine ⟨?_, ?_, ?_⟩
  · intro hne
    obtain ⟨ev0, hev0⟩ := List.exists_mem_of_ne_nil _ hne
    have hpk : keywords (orEmpty t.project) ≠ [] := by
      intro hnil
      have := (hmatch_entry ev0 hev0).2
      simp [keywordOverlap, hnil] at this
    have hsome : (soonestAux (keywords (orEmpty t.project)) (eventEntries today events) none).isSome := by
      refine soonestAux_isSome_of_match _ _ _ ?_
      exact ⟨_, (hmatch_entry ev0 hev0).1, (hmatch_entry ev0 hev0).2⟩
    obtain ⟨⟨d, s⟩, hds⟩ := Option.isSome_iff_exists.mp hsome
    refine ⟨d, s, ?_, ?_, ?_, ?_⟩
    · simp only [annotateTask, hpk, if_false, hds]
    · simp only [annotateTask, hpk, if_false, hds]
    · rcases soonestAux_source _ _ _ _ _ hds with h' | ⟨e, he, hov, hd, hs⟩
      · simp at h'
      · obtain ⟨ev, hmem, h1, h2⟩ := hov_entry e he hov
        exact ⟨ev, hmem, by rw [h1, hd], by rw [h2, hs]⟩
    · intro ev hev
      obtain ⟨hent, hov⟩ := hmatch_entry ev hev
      exact soonestAux_lower_bound _ _ _ _ _ hds _ hent hov
  · intro hnil
    by_cases hpk : keywords (orEmpty t.project) = []
    · simp [annotateTask, hpk]
    · have hnone : soonestAux (keywords (orEmpty t.project)) (eventEntries today events) none = none := by
        apply soonestAux_no_match
        intro e he
        by_contra hov
        obtain ⟨ev, hmem, _, _⟩ := hov_entry e he (by simpa using hov)
        rw [hnil] at hmem
        simp at hmem
      simp [annotateTask, hpk, hnone]
  · intro hproj
    have hpk : keywords (orEmpty t.project) = [] := by
      rcases hproj with h | h <;> rw [h] <;> simpa [orEmpty] using hkwnil
    simp [annotateTask, hpk]

/-! ### The next-task session deadline -/

theorem strLe_total (a : Str) : ∀ b : Str, strLe a b || strLe b a := by
  induction a with
  | nil => intro b; simp [strLe]
  | cons x xs ih =>
    intro b
    cases b with
    | nil => simp [strLe]
    | cons y ys =>
      simp only [strLe]
      rcases lt_trichotomy x y with h | h | h
      · simp [h]
      · subst h
        simpa [lt_irrefl] using ih ys
      · simp [h, lt_asymm h]

theorem strLe_trans (a : Str) : ∀ b c : Str, strLe a b → strLe b c → strLe a c := by
  induction a with
  | nil => intro b c _ _; simp [strLe]
  | cons x xs ih =>
    intro b c h1 h2
    cases b with
    | nil => simp [strLe] at h1
    | cons y ys =>
      cases c with
      | nil => simp [strLe] at h2
      | cons z zs =>
        simp only [strLe] at h1 h2 ⊢
        rcases lt_trichotomy x y with hxy | hxy | hxy
        · rcases lt_trichotomy y z with hyz | hyz | hyz
          · simp [lt_trans hxy hyz]
          · subst hyz; simp [hxy]
          · simp [lt_asymm hyz, hyz] at h2
        · subst hxy
          rcases lt_trichotomy x z with hxz | hxz | hxz
          · simp [hxz]
          · subst hxz
            simp only [lt_irrefl, if_false] at h1 h2 ⊢
            exact ih ys zs h1 h2
          · simp [lt_asymm hxz, hxz] at h2
        · simp [lt_asymm hxy, hxy] at h1

theorem timeNameLe_total (a b : Nat × Str) : timeNameLe a b || timeNameLe b a := by
  simp only [timeNameLe]
  rcases Nat.lt_trichotomy a.1 b.1 with h | h | h
  · simp [h]
  · simp only [h, lt_irrefl, if_false]
    exact strLe_total a.2 b.2
  · simp [h, Nat.lt_asymm h]

theorem timeNameLe_trans (a b c : Nat × Str) (h1 : timeNameLe a b) (h2 : timeNameLe b c) :
    timeNameLe a c = true := by
  simp only [timeNameLe] at h1 h2 ⊢
  rcases Nat.lt_trichotomy a.1 b.1 with hab | hab | hab
  · rcases Nat.lt_trichotomy b.1 c.1 with hbc | hbc | hbc
    · simp [Nat.lt_trans hab hbc]
    · rw [← hbc]; simp [hab]
    · simp [Nat.lt_asymm hbc, hbc] at h2
  · rcases Nat.lt_trichotomy b.1 c.1 with hbc | hbc | hbc
    · simp [hab ▸ hbc]
    · have h11 : strLe a.2 b.2 = true := by
        simpa [hab, lt_self_iff_false] using h1
      have h22 : strLe b.2 c.2 = true := by
        simpa [hbc, lt_self_iff_false] using h2
      have hac : a.1 = c.1 := hab.trans hbc
      simp [hac, lt_self_iff_false, strLe_trans a.2 b.2 c.2 h11 h22]
    · simp [Nat.lt_asymm hbc, hbc] at h2
  · simp [Nat.lt_asymm hab, hab] at h1

theorem timeNameLe_fst_le (a b : Nat × Str) (h : timeNameLe a b) : a.1 ≤ b.1 := by
  simp only [timeNameLe] at h
  rcases Nat.lt_trichotomy a.1 b.1 with h' | h' | h'
  · omega
  · omega
  · simp [Nat.lt_asymm h', h'] at h

theorem filterMap_filter_of_none {α β : Type} (f : α → Option β) (p : α → Bool)
    (l : List α) (h : ∀ x, p x = false → f x = none) :
    (l.filter p).filterMap f = l.filterMap f := by
  induction l with
  | nil => rfl
  | cons x rest ih =>
    by_cases hp : p x = true
    · simp [List.filter_cons, hp, List.filterMap_cons, ih]
    · have hpf : p x = false := by simpa using hp
      simp [List.filter_cons, hpf, List.filterMap_cons, h x hpf, ih]

theorem upcomingMeetings_ignores_all_day (events : List Event) (today : Int) (nowSec : Nat) :
    upcomingMeetings (events.filter (fun ev => !ev.all_day)) today nowSec
      = upcomingMeetings events today nowSec := by
  unfold upcomingMeetings
  apply filterMap_filter_of_none
  intro ev hev
  simp only [Bool.not_eq_false'] at hev
  simp [hev]

/-- C6: the session deadline is the earlier of the leave time and the
start of the soonest timed event of today that starts after now and no
later than the leave time; all-day events never affect it; available
minutes are the whole-minute difference now→deadline truncated toward
zero; and with no positive minute available the selector reports
`noTime` (no task is suggested). -/
theorem C6_session_deadline (tasks : Tasks) (events : List Event) (today : Int)
    (nowSec leaveSec : Nat) :
    (sessionDeadline events today nowSec leaveSec =
      match (((upcomingMeetings events today nowSec).map Prod.fst).filter
          (fun ts => ts ≤ leaveSec)).min? with
      | some m => min leaveSec m
      | none => leaveSec) ∧
    sessionDeadline (events.filter (fun ev => !ev.all_day)) today nowSec leaveSec
      = sessionDeadline events today nowSec leaveSec ∧
    availableMins events today nowSec leaveSec =
      Int.tdiv ((sessionDeadline events today nowSec leaveSec : Int) - (nowSec : Int)) 60 ∧
    (availableMins events today nowSec leaveSec ≤ 0 →
      next_task tasks leaveSec events today nowSec = .noTime) := by
  refine ⟨?_, ?_, rfl, ?_⟩
  · rcases hs : (upcomingMeetings events today nowSec).mergeSort timeNameLe with _ | ⟨⟨t0, s0⟩, rest⟩
    · have hup : upcomingMeetings events today nowSec = [] := by
        have := List.mergeSort_perm (upcomingMeetings events today nowSec) timeNameLe
        rw [hs] at this
        exact this.symm.eq_nil
      rw [sessionDeadline, hs, hup]
      simp
    · have hperm := List.mergeSort_perm (upcomingMeetings events today nowSec) timeNameLe
      have hmem0 : (t0, s0) ∈ upcomingMeetings events today nowSec :=
        hperm.subset (by rw [hs]; exact List.mem_cons_self _ _)
      have hmin : ∀ x ∈ upcomingMeetings events today nowSec, t0 ≤ x.1 := by
        intro x hx
        have hx2 := hperm.symm.subset hx
        rw [hs] at hx2
        rcases List.mem_cons.mp hx2 with rfl | hx'
        · exact le_refl _
        · have hpw := List.sorted_mergeSort
            (fun a b c => timeNameLe_trans a b c) timeNameLe_total
            (upcomingMeetings events today nowSec)
          rw [hs] at hpw
          exact timeNameLe_fst_le _ _ ((List.pairwise_cons.mp hpw).1 x hx')
      rw [sessionDeadline, hs]
      by_cases hle : t0 ≤ leaveSec
      · have hQ : (((upcomingMeetings events today nowSec).map Prod.fst).filter
            (fun ts => ts ≤ leaveSec)).min? = some t0 := by
          rw [List.min?_eq_some_iff (fun a => Nat.le_refl a)
            (fun a b => by omega) (fun a b c => by omega)]
          constructor
          · rw [List.mem_filter]
            exact ⟨List.mem_map.mpr ⟨(t0, s0), hmem0, rfl⟩, by simpa using hle⟩
          · intro b hb
            obtain ⟨hb1, _⟩ := List.mem_filter.mp hb
            obtain ⟨x, hx, rfl⟩ := List.mem_map.mp hb1
            exact hmin x hx
        rw [hQ]
        simp [hle, Nat.min_eq_right hle]
      · have hQ : (((upcomingMeetings events today nowSec).map Prod.fst).filter
            (fun ts => ts ≤ leaveSec)).min? = none := by
          rw [List.min?_eq_none_iff, List.eq_nil_iff_forall_not_mem]
          intro b hb
          obtain ⟨hb1, hb2⟩ := List.mem_filter.mp hb
          obtain ⟨x, hx, rfl⟩ := List.mem_map.mp hb1
          have := hmin x hx
          simp only [decide_eq_true_eq] at hb2
          omega
        rw [hQ]
        simp [hle]
  · rw [sessionDeadline, sessionDeadline, upcomingMeetings_ignores_all_day]
  · intro hav
    simp [next_task, hav]

theorem findFit_eq_find (a : Int) (l : List Task) :
    findFit a l = l.find? (fun t => decide (minNeeded t ≤ a)) := by
  induction l with
  | nil => rfl
  | cons t rest ih =>
    simp only [findFit, List.find?_cons]
    by_cases h : minNeeded t ≤ a
    · simp [h]
    · simp [h, ih]

/-- C7: with positive available minutes the selector returns the first
ranked task whose minutes floor (15 when quick; else 90/45/1 for
high/medium/low-or-unset effort) is at most the available minutes, and
`noFit` when none fits — an outcome distinct from `noTime`. -/
theorem C7_selector_first_fit (tasks : Tasks) (events : List Event) (today : Int)
    (nowSec leaveSec : Nat) (hpos : 0 < availableMins events today nowSec leaveSec) :
    (next_task tasks leaveSec events today nowSec =
      match tasks.actionable.find?
          (fun t => decide (minNeeded t ≤ availableMins events today nowSec leaveSec)) with
      | some t => .suggestion t
      | none => .noFit) ∧
    (∀ t : Task, t.quick = true → minNeeded t = 15) ∧
    (∀ t : Task, t.quick = false → t.effort = some (r"high").data → minNeeded t = 90) ∧
    (∀ t : Task, t.quick = false → t.effort = some (r"medium").data → minNeeded t = 45) ∧
    (∀ t : Task, t.quick = false → t.effort = some (r"low").data → minNeeded t = 1) ∧
    (∀ t : Task, t.quick = false → (t.effort = none ∨ t.effort = some []) → minNeeded t = 1) ∧
    NextResult.noFit ≠ NextResult.noTime := by
  refine ⟨?_, ?_, ?_, ?_, ?_, ?_, by simp⟩
  · rw [next_task]
    simp only [not_le.mpr hpos, if_false]
    rw [findFit_eq_find]
  · intro t hq; simp [minNeeded, hq]
  · intro t hq he; simp [minNeeded, hq, he, EFFORT_MIN_MINUTES]
  · intro t hq he; simp [minNeeded, hq, he, EFFORT_MIN_MINUTES]
  · intro t hq he; simp [minNeeded, hq, he, EFFORT_MIN_MINUTES]
  · intro t hq he
    rcases he with he | he <;> simp [minNeeded, hq, he, EFFORT_MIN_MINUTES]

/-! ### The tag reconciler -/

theorem splitDash_append (line : Str) (h : line.contains '—' = true) :
    (splitDash line).1 ++ '—' :: (splitDash line).2 = line := by
  induction line with
  | nil => simp at h
  | cons c rest ih =>
    by_cases hc : c = '—'
    · subst hc
      simp [splitDash]
    · have hrest : rest.contains '—' = true := by
        simp only [List.contains_cons] at h
        rcases Bool.or_eq_true_iff.mp h with h' | h'
        · have hcc : ('—' : Char) = c := by simpa using h'
          exact absurd hcc.symm hc
        · exact h'
      simp only [splitDash, hc, if_false]
      simpa using ih hrest

theorem splitDash_fst_no_dash (line : Str) : '—' ∉ (splitDash line).1 := by
  induction line with
  | nil => simp [splitDash]
  | cons c rest ih =>
    by_cases hc : c = '—'
    · subst hc; simp [splitDash]
    · simp only [splitDash, hc, if_false]
      intro hmem
      rcases List.mem_cons.mp hmem with h' | h'
      · exact hc h'.symm
      · exact ih h'

theorem splitDash_of_prefix (p r : Str) (hp : '—' ∉ p) :
    splitDash (p ++ '—' :: r) = (p, r) := by
  induction p with
  | nil => simp [splitDash]
  | cons c p' ih =>
    have hc : c ≠ '—' := fun h => hp (h ▸ List.mem_cons_self c p')
    have hp' : '—' ∉ p' := fun h => hp (List.mem_cons_of_mem c h)
    simp only [List.cons_append, splitDash, hc, if_false]
    rw [show p'.append ('—' :: r) = p' ++ '—' :: r from rfl, ih hp']

theorem findTagMatch_eq_find (clean : Str) (l : List (Str × Str)) :
    findTagMatch clean l =
      (l.find? (fun p => isSubstrOf p.1 clean || isSubstrOf clean p.1)).map Prod.snd := by
  induction l with
  | nil => rfl
  | cons p rest ih =>
    rcases p with ⟨task_text, tag⟩
    simp only [findTagMatch, List.find?_cons]
    by_cases h : (isSubstrOf task_text clean || isSubstrOf clean task_text) = true
    · simp [h]
    · simp [h, ih]

/-- C8: the reconciler rewrites exactly the checkbox task lines whose
description (after the em-dash separator, stripped) does not start with
a bracket, matching the lowercased description with the `"(priority:"`
metadata cut off against the first lookup entry related by substring
containment in either direction, and re-inserting that entry's tag right
after the separator; already-tagged task lines and non-task lines pass
through unchanged. -/
theorem C8_reconciler_rewrite (tag_lookup : List (Str × Str)) (line : Str) :
    (¬(checkboxMarker.isPrefixOf (stripStr line) = true ∧ line.contains '—' = true) →
      processLine tag_lookup line = line) ∧
    (checkboxMarker.isPrefixOf (stripStr line) = true → line.contains '—' = true →
      ['['].isPrefixOf (stripStr (splitDash line).2) = true →
      processLine tag_lookup line = line) ∧
    (checkboxMarker.isPrefixOf (stripStr line) = true → line.contains '—' = true →
      ¬(['['].isPrefixOf (stripStr (splitDash line).2) = true) →
      processLine tag_lookup line =
        (match tag_lookup.find? (fun p =>
            isSubstrOf p.1 (stripStr (takeBeforePat priorityPat
              (lowerStr (stripStr (splitDash line).2)))) ||
            isSubstrOf (stripStr (takeBeforePat priorityPat
              (lowerStr (stripStr (splitDash line).2)))) p.1) with
        | none => line
        | some p =>
          (splitDash line).1 ++ '—' :: ' ' :: (p.2 ++ ' ' :: stripStr (splitDash line).2))) := by
  refine ⟨?_, ?_, ?_⟩
  · intro h
    simp only [processLine, h, if_false]
  · intro h1 h2 h3
    simp only [processLine, h1, h2, and_self, if_true, h3]
  · intro h1 h2 h3
    simp only [processLine, h1, h2, and_self, if_true, h3, if_false]
    rw [findTagMatch_eq_find]
    rcases hf : (tag_lookup.find? fun p =>
        isSubstrOf p.1 (stripStr (takeBeforePat priorityPat
          (lowerStr (stripStr (splitDash line).2)))) ||
        isSubstrOf (stripStr (takeBeforePat priorityPat
          (lowerStr (stripStr (splitDash line).2)))) p.1) with _ | p <;> simp [hf]

/-! ### Line splitting and joining -/

theorem splitLines_eq_nil_iff (s : Str) : splitLines s = [] ↔ s = [] := by
  constructor
  · intro h
    cases s with
    | nil => rfl
    | cons c rest =>
      exfalso
      by_cases hn : c = '\n'
      · subst hn; simp [splitLines] at h
      · by_cases hr : c = '\r'
        · subst hr
          cases rest with
          | nil => simp [splitLines] at h
          | cons c2 rest2 =>
            by_cases h2 : c2 = '\n'
            · subst h2; simp [splitLines] at h
            · simp [splitLines, h2] at h
        · rw [show splitLines (c :: rest)
              = match splitLines rest with
                | [] => [[c]]
                | l :: ls => (c :: l) :: ls from by simp [splitLines, hr, hn]] at h
          rcases hs : splitLines rest with _ | ⟨l, ls⟩ <;> rw [hs] at h <;> simp at h
  · intro h; subst h; rfl

theorem splitLines_no_breaks (s : Str) :
    ∀ l ∈ splitLines s, '\n' ∉ l ∧ '\r' ∉ l := by
  induction s using splitLines.induct with
  | case1 => intro l hl; simp [splitLines] at hl
  | case2 rest ih =>
    intro l hl
    rw [show splitLines ('\r' :: '\n' :: rest) = [] :: splitLines rest from by
      simp [splitLines]] at hl
    rcases List.mem_cons.mp hl with rfl | hl'
    · simp
    · exact ih l hl'
  | case3 rest hne ih =>
    intro l hl
    rw [show splitLines ('\r' :: rest) = [] :: splitLines rest from by
      cases rest with
      | nil => simp [splitLines]
      | cons c2 r2 =>
        have h2 : c2 ≠ '\n' := fun h => hne r2 (by rw [h])
        simp [splitLines, h2]] at hl
    rcases List.mem_cons.mp hl with rfl | hl'
    · simp
    · exact ih l hl'
  | case4 rest ih =>
    intro l hl
    rw [show splitLines ('\n' :: rest) = [] :: splitLines rest from by simp [splitLines]] at hl
    rcases List.mem_cons.mp hl with rfl | hl'
    · simp
    · exact ih l hl'
  | case5 c rest hcr hr hn hs ih =>
    intro l hl
    rw [show splitLines (c :: rest) = [[c]] from by simp [splitLines, hr, hn, hs]] at hl
    rcases List.mem_cons.mp hl with rfl | hl'
    · constructor <;> simp <;> intro h
      · exact hn h.symm
      · exact hr h.symm
    · simp at hl'
  | case6 c rest hcr hr hn l0 ls0 hs ih =>
    intro l hl
    rw [show splitLines (c :: rest) = (c :: l0) :: ls0 from by simp [splitLines, hr, hn, hs]] at hl
    have hl0 := ih l0 (by rw [hs]; exact List.mem_cons_self _ _)
    rcases List.mem_cons.mp hl with rfl | hl'
    · constructor
      · intro hmem
        rcases List.mem_cons.mp hmem with h' | h'
        · exact hn h'.symm
        · exact hl0.1 h'
      · intro hmem
        rcases List.mem_cons.mp hmem with h' | h'
        · exact hr h'.symm
        · exact hl0.2 h'
    · exact ih l (by rw [hs]; exact List.mem_cons_of_mem _ hl')

theorem splitLines_append_newline (x s : Str) (hn : '\n' ∉ x) (hr : '\r' ∉ x) :
    splitLines (x ++ '\n' :: s) = x :: splitLines s := by
  induction x with
  | nil => simp [splitLines]
  | cons c x' ih =>
    have hcn : c ≠ '\n' := fun h => hn (h ▸ List.mem_cons_self c x')
    have hcr : c ≠ '\r' := fun h => hr (h ▸ List.mem_cons_self c x')
    have hn' : '\n' ∉ x' := fun h => hn (List.mem_cons_of_mem c h)
    have hr' : '\r' ∉ x' := fun h => hr (List.mem_cons_of_mem c h)
    rw [List.cons_append]
    rw [show splitLines (c :: (x' ++ '\n' :: s))
        = match splitLines (x' ++ '\n' :: s) with
          | [] => [[c]]
          | l :: ls => (c :: l) :: ls from by simp [splitLines, hcr, hcn]]
    rw [ih hn' hr']

theorem splitLines_of_no_break (x : Str) (hx : x ≠ []) (hn : '\n' ∉ x) (hr : '\r' ∉ x) :
    splitLines x = [x] := by
  induction x with
  | nil => exact absurd rfl hx
  | cons c x' ih =>
    have hcn : c ≠ '\n' := fun h => hn (h ▸ List.mem_cons_self c x')
    have hcr : c ≠ '\r' := fun h => hr (h ▸ List.mem_cons_self c x')
    have hn' : '\n' ∉ x' := fun h => hn (List.mem_cons_of_mem c h)
    have hr' : '\r' ∉ x' := fun h => hr (List.mem_cons_of_mem c h)
    rw [show splitLines (c :: x')
        = match splitLines x' with
          | [] => [[c]]
          | l :: ls => (c :: l) :: ls from by simp [splitLines, hcr, hcn]]
    cases hx' : x' with
    | nil => subst hx'; simp [splitLines]
    | cons c2 r2 =>
      rw [← hx']
      rw [ih (by rw [hx']; simp) hn' hr']

theorem joinLines_cons_cons (c : Char) (l : Str) (ls : List Str) :
    joinLines ((c :: l) :: ls) = c :: joinLines (l :: ls) := by
  cases ls <;> simp [joinLines]

theorem splitLines_joinLines (L : List Str)
    (hL : ∀ l ∈ L, '\n' ∉ l ∧ '\r' ∉ l) (hlast : L.getLast? ≠ some []) :
    splitLines (joinLines L) = L := by
  induction L with
  | nil => rfl
  | cons x L' ih =>
    cases L' with
    | nil =>
      have hx : x ≠ [] := by
        intro h
        exact hlast (by simp [h])
      rw [show joinLines [x] = x from rfl]
      exact splitLines_of_no_break x hx (hL x (by simp)).1 (hL x (by simp)).2
    | cons y L'' =>
      rw [show joinLines (x :: y :: L'') = x ++ '\n' :: joinLines (y :: L'') from rfl]
      rw [splitLines_append_newline x _ (hL x (by simp)).1 (hL x (by simp)).2]
      rw [ih (fun l hl => hL l (List.mem_cons_of_mem x hl)) (by simpa using hlast)]

theorem normalizeBreaks_eq_nil_iff (s : Str) : normalizeBreaks s = [] ↔ s = [] := by
  constructor
  · intro h
    cases s with
    | nil => rfl
    | cons c rest =>
      exfalso
      by_cases hn : c = '\n'
      · subst hn; simp [normalizeBreaks] at h
      · by_cases hr : c = '\r'
        · subst hr
          cases rest with
          | nil => simp [normalizeBreaks] at h
          | cons c2 rest2 =>
            by_cases h2 : c2 = '\n'
            · subst h2; simp [normalizeBreaks] at h
            · simp [normalizeBreaks, h2] at h
        · simp [normalizeBreaks, hr, hn] at h
  · intro h; subst h; rfl

theorem dropTrailingNewline_cons (c : Char) (u : Str) (hu : u ≠ []) :
    dropTrailingNewline (c :: u) = c :: dropTrailingNewline u := by
  cases u with
  | nil => exact absurd rfl hu
  | cons d u' =>
    by_cases h : (d :: u').getLast? = some '\n'
    · simp [dropTrailingNewline, List.getLast?_cons_cons, h]
    · simp [dropTrailingNewline, List.getLast?_cons_cons, h]

theorem joinLines_splitLines (s : Str) :
    joinLines (splitLines s) = dropTrailingNewline (normalizeBreaks s) := by
  induction s using splitLines.induct with
  | case1 => rfl
  | case2 rest ih =>
    rw [show splitLines ('\r' :: '\n' :: rest) = [] :: splitLines rest from by simp [splitLines],
      show normalizeBreaks ('\r' :: '\n' :: rest) = '\n' :: normalizeBreaks rest from by
        simp [normalizeBreaks]]
    by_cases hrest : rest = []
    · subst hrest; rfl
    · rcases hs : splitLines rest with _ | ⟨l, ls⟩
      · exact absurd ((splitLines_eq_nil_iff rest).mp hs) hrest
      · rw [show joinLines ([] :: l :: ls) = '\n' :: joinLines (l :: ls) from rfl, ← hs, ih,
          dropTrailingNewline_cons _ _ (fun h => hrest ((normalizeBreaks_eq_nil_iff rest).mp h))]
  | case3 rest hne ih =>
    have hsplit : splitLines ('\r' :: rest) = [] :: splitLines rest := by
      cases rest with
      | nil => simp [splitLines]
      | cons c2 r2 =>
        have h2 : c2 ≠ '\n' := fun h => hne r2 (by rw [h])
        simp [splitLines, h2]
    have hnorm : normalizeBreaks ('\r' :: rest) = '\n' :: normalizeBreaks rest := by
      cases rest with
      | nil => simp [normalizeBreaks]
      | cons c2 r2 =>
        have h2 : c2 ≠ '\n' := fun h => hne r2 (by rw [h])
        simp [normalizeBreaks, h2]
    rw [hsplit, hnorm]
    by_cases hrest : rest = []
    · subst hrest; rfl
    · rcases hs : splitLines rest with _ | ⟨l, ls⟩
      · exact absurd ((splitLines_eq_nil_iff rest).mp hs) hrest
      · rw [show joinLines ([] :: l :: ls) = '\n' :: joinLines (l :: ls) from rfl, ← hs, ih,
          dropTrailingNewline_cons _ _ (fun h => hrest ((normalizeBreaks_eq_nil_iff rest).mp h))]
  | case4 rest ih =>
    rw [show splitLines ('\n' :: rest) = [] :: splitLines rest from by simp [splitLines],
      show normalizeBreaks ('\n' :: rest) = '\n' :: normalizeBreaks rest from by
        simp [normalizeBreaks]]
    by_cases hrest : rest = []
    · subst hrest; rfl
    · rcases hs : splitLines rest with _ | ⟨l, ls⟩
      · exact absurd ((splitLines_eq_nil_iff rest).mp hs) hrest
      · rw [show joinLines ([] :: l :: ls) = '\n' :: joinLines (l :: ls) from rfl, ← hs, ih,
          dropTrailingNewline_cons _ _ (fun h => hrest ((normalizeBreaks_eq_nil_iff rest).mp h))]
  | case5 c rest hcr hr hn hs ih =>
    have hrest : rest = [] := (splitLines_eq_nil_iff rest).mp hs
    subst hrest
    rw [show splitLines (c :: []) = [[c]] from by simp [splitLines, hr, hn, hs],
      show normalizeBreaks (c :: []) = [c] from by simp [normalizeBreaks, hr, hn]]
    have hne : ¬(c = '\n') := fun h => hn h
    simp [joinLines, dropTrailingNewline, hne]
  | case6 c rest hcr hr hn l0 ls0 hs ih =>
    have hrest : rest ≠ [] := by
      intro h
      rw [h] at hs
      simp [splitLines] at hs
    rw [show splitLines (c :: rest) = (c :: l0) :: ls0 from by simp [splitLines, hr, hn, hs],
      show normalizeBreaks (c :: rest) = c :: normalizeBreaks rest from by
        simp [normalizeBreaks, hr, hn],
      joinLines_cons_cons, ← hs, ih,
      dropTrailingNewline_cons _ _ (fun h => hrest ((normalizeBreaks_eq_nil_iff rest).mp h))]

/-! ### Behaviour of `processLine` needed for idempotence -/

theorem dropWhile_ws_append_last (l : Str) (c : Char) (hc : c.isWhitespace = false) :
    ∃ u, (l ++ [c]).dropWhile Char.isWhitespace = u ++ [c] := by
  induction l with
  | nil => exact ⟨[], by simp [List.dropWhile, hc]⟩
  | cons x l' ih =>
    by_cases hx : x.isWhitespace = true
    · simpa [List.dropWhile, hx] using ih
    · exact ⟨x :: l', by simp [List.dropWhile, hx]⟩

theorem stripStr_space_bracket (v : Str) :
    ∃ u, stripStr (' ' :: '[' :: v) = '[' :: u := by
  have h1 : (' ' :: '[' :: v).dropWhile Char.isWhitespace = '[' :: v := by
    simp [List.dropWhile]
  obtain ⟨u, hu⟩ := dropWhile_ws_append_last v.reverse '[' (by decide)
  refine ⟨u.reverse, ?_⟩
  rw [stripStr, h1]
  rw [show ('[' :: v).reverse = v.reverse ++ ['['] from by simp]
  rw [hu]
  simp

theorem mem_stripStr (x : Char) (s : Str) (h : x ∈ stripStr s) : x ∈ s := by
  rw [stripStr] at h
  rw [List.mem_reverse] at h
  have h2 := (show List.Sublist
      (((s.dropWhile Char.isWhitespace).reverse).dropWhile Char.isWhitespace)
      ((s.dropWhile Char.isWhitespace).reverse) from
    List.dropWhile_sublist Char.isWhitespace).subset h
  rw [List.mem_reverse] at h2
  exact (show List.Sublist (s.dropWhile Char.isWhitespace) s from
    List.dropWhile_sublist Char.isWhitespace).subset h2

theorem findTagMatch_mem (clean : Str) (l : List (Str × Str)) (tag : Str)
    (h : findTagMatch clean l = some tag) : ∃ k, (k, tag) ∈ l := by
  induction l with
  | nil => simp [findTagMatch] at h
  | cons p rest ih =>
    rcases p with ⟨k0, tag0⟩
    simp only [findTagMatch] at h
    by_cases hm : (isSubstrOf k0 clean || isSubstrOf clean k0) = true
    · simp only [hm, if_true, Option.some.injEq] at h
      exact ⟨k0, by rw [h]; exact List.mem_cons_self _ _⟩
    · simp only [hm, if_false] at h
      obtain ⟨k, hk⟩ := ih h
      exact ⟨k, List.mem_cons_of_mem _ hk⟩

/-- Either `processLine` leaves the line alone, or it returns the line
rebuilt around the first em dash with a looked-up tag inserted. -/
theorem processLine_eq_or_rewrite (tag_lookup : List (Str × Str)) (line : Str) :
    processLine tag_lookup line = line ∨
    ∃ tag, (∃ k, (k, tag) ∈ tag_lookup) ∧ line.contains '—' = true ∧
      processLine tag_lookup line =
        (splitDash line).1 ++ '—' :: ' ' :: (tag ++ ' ' :: stripStr (splitDash line).2) := by
  by_cases h1 : (checkboxMarker.isPrefixOf (stripStr line) = true ∧ line.contains '—' = true)
  · by_cases h2 : ['['].isPrefixOf (stripStr (splitDash line).2) = true
    · left
      simp only [processLine, h1, and_self, if_true, h2]
    · rcases hf : findTagMatch (stripStr (takeBeforePat priorityPat
          (lowerStr (stripStr (splitDash line).2)))) tag_lookup with _ | tag
      · left
        simp only [processLine, h1.1, h1.2, and_self, if_true, h2, if_false, hf]
        simp [h2]
      · right
        refine ⟨tag, findTagMatch_mem _ _ _ hf, h1.2, ?_⟩
        simp only [processLine, h1.1, h1.2, and_self, if_true, h2, if_false, hf]
        simp [h2]
  · left
    simp only [processLine, h1, if_false]

theorem processLine_ne_nil (tag_lookup : List (Str × Str)) (line : Str)
    (h : line ≠ []) : processLine tag_lookup line ≠ [] := by
  rcases processLine_eq_or_rewrite tag_lookup line with he | ⟨tag, _, _, he⟩
  · rw [he]; exact h
  · rw [he]
    rcases hsp : (splitDash line).1 with _ | ⟨c, p'⟩ <;> simp

theorem processLine_no_breaks (tag_lookup : List (Str × Str)) (line : Str)
    (hn : '\n' ∉ line) (hr : '\r' ∉ line)
    (htags : ∀ p ∈ tag_lookup, '\n' ∉ p.2 ∧ '\r' ∉ p.2) :
    '\n' ∉ processLine tag_lookup line ∧ '\r' ∉ processLine tag_lookup line := by
  rcases processLine_eq_or_rewrite tag_lookup line with he | ⟨tag, ⟨k, hk⟩, hdash, he⟩
  · rw [he]; exact ⟨hn, hr⟩
  · rw [he]
    have hline := splitDash_append line hdash
    have hmem1 : ∀ x, x ∈ (splitDash line).1 → x ∈ line := by
      intro x hx
      rw [← hline]
      exact List.mem_append.mpr (Or.inl hx)
    have hmem2 : ∀ x, x ∈ stripStr (splitDash line).2 → x ∈ line := by
      intro x hx
      rw [← hline]
      exact List.mem_append.mpr (Or.inr (List.mem_cons_of_mem _ (mem_stripStr _ _ hx)))
    have htag := htags (k, tag) hk
    constructor
    · intro hx
      rcases List.mem_append.mp hx with h' | h'
      · exact hn (hmem1 _ h')
      · rcases List.mem_cons.mp h' with h'' | h''
        · exact absurd h''.symm (by decide)
        · rcases List.mem_cons.mp h'' with h3 | h3
          · exact absurd h3.symm (by decide)
          · rcases List.mem_append.mp h3 with h4 | h4
            · exact htag.1 h4
            · rcases List.mem_cons.mp h4 with h5 | h5
              · exact absurd h5.symm (by decide)
              · exact hn (hmem2 _ h5)
    · intro hx
      rcases List.mem_append.mp hx with h' | h'
      · exact hr (hmem1 _ h')
      · rcases List.mem_cons.mp h' with h'' | h''
        · exact absurd h''.symm (by decide)
        · rcases List.mem_cons.mp h'' with h3 | h3
          · exact absurd h3.symm (by decide)
          · rcases List.mem_append.mp h3 with h4 | h4
            · exact htag.2 h4
            · rcases List.mem_cons.mp h4 with h5 | h5
              · exact absurd h5.symm (by decide)
              · exact hr (hmem2 _ h5)

theorem processLine_idem (tag_lookup : List (Str × Str)) (line : Str)
    (htags : ∀ p ∈ tag_lookup, ∃ t, p.2 = '[' :: t) :
    processLine tag_lookup (processLine tag_lookup line) = processLine tag_lookup line := by
  rcases processLine_eq_or_rewrite tag_lookup line with he | ⟨tag, ⟨k, hk⟩, hdash, he⟩
  · rw [he, he]
  · rw [he]
    obtain ⟨t, htag⟩ := htags (k, tag) hk
    have htag' : tag = '[' :: t := htag
    set line' := (splitDash line).1 ++ '—' :: ' ' :: (tag ++ ' ' :: stripStr (splitDash line).2)
      with hline'
    by_cases hcond : (checkboxMarker.isPrefixOf (stripStr line') = true ∧
        line'.contains '—' = true)
    · have hsp : splitDash line' = ((splitDash line).1,
          ' ' :: (tag ++ ' ' :: stripStr (splitDash line).2)) :=
        splitDash_of_prefix _ _ (splitDash_fst_no_dash line)
      have h2' : stripStr (splitDash line').2
          = stripStr (' ' :: '[' :: (t ++ ' ' :: stripStr (splitDash line).2)) := by
        rw [hsp, htag']
        rfl
      obtain ⟨u, hu⟩ := stripStr_space_bracket (t ++ ' ' :: stripStr (splitDash line).2)
      have hpre : ['['].isPrefixOf (stripStr (splitDash line').2) = true := by
        rw [h2', hu]
        simp [List.isPrefixOf]
      simp only [processLine, hcond.1, hcond.2, and_self, if_true, hpre]
    · simp only [processLine, hcond, if_false]

/-- C9 (amended): the reconciler is idempotent on every plan text whose
final line is non-empty (the text does not end in two consecutive line
breaks) for every lookup whose tags are bracketed and free of line
breaks — in particular a line that gained a tag, or already started with
one, is never re-tagged or double-tagged (per-line idempotence holds for
every line). -/
theorem C9_reconciler_idempotent (plan_text : Str) (tag_lookup : List (Str × Str))
    (htags : ∀ p ∈ tag_lookup, (∃ t, p.2 = '[' :: t) ∧ '\n' ∉ p.2 ∧ '\r' ∉ p.2)
    (hlast : (splitLines plan_text).getLast? ≠ some []) :
    reinsert_project_tags (reinsert_project_tags plan_text tag_lookup) tag_lookup
      = reinsert_project_tags plan_text tag_lookup ∧
    (∀ line : Str, processLine tag_lookup (processLine tag_lookup line)
      = processLine tag_lookup line) := by
  constructor
  · by_cases hl : tag_lookup = []
    · simp [reinsert_project_tags, hl]
    · rw [reinsert_project_tags, if_neg hl, reinsert_project_tags, if_neg hl]
      have hnb : ∀ l ∈ (splitLines plan_text).map (processLine tag_lookup),
          '\n' ∉ l ∧ '\r' ∉ l := by
        intro l hl'
        obtain ⟨l0, hl0, rfl⟩ := List.mem_map.mp hl'
        have h0 := splitLines_no_breaks plan_text l0 hl0
        exact processLine_no_breaks tag_lookup l0 h0.1 h0.2
          (fun p hp => (htags p hp).2)
      have hlast1 : ((splitLines plan_text).map (processLine tag_lookup)).getLast?
          ≠ some [] := by
        rw [List.getLast?_map]
        rcases hg : (splitLines plan_text).getLast? with _ | last
        · simp
        · rw [hg] at hlast
          intro hcon
          have hlne : last ≠ [] := fun h => hlast (by rw [h])
          exact processLine_ne_nil tag_lookup last hlne (by simpa using hcon)
      rw [splitLines_joinLines _ hnb hlast1, List.map_map]
      have : (splitLines plan_text).map (processLine tag_lookup ∘ processLine tag_lookup)
          = (splitLines plan_text).map (processLine tag_lookup) :=
        List.map_congr_left (fun l _ =>
          processLine_idem tag_lookup l (fun p hp => (htags p hp).1))
      rw [this]
  · intro line
    exact processLine_idem tag_lookup line (fun p hp => (htags p hp).1)

/-- C9, the claim as frozen, is false: with the well-formed bracketed
lookup `{"x": "[P]"}` and the plan text `"\n\n"`, one application yields
`"\n"` and a second application yields `""` — `splitlines` drops the
trailing empty line that `"\n".join` re-created. -/
theorem C9_counterexample :
    reinsert_project_tags
        (reinsert_project_tags ['\n', '\n'] [((r"x").data, (r"[P]").data)])
        [((r"x").data, (r"[P]").data)]
      ≠ reinsert_project_tags ['\n', '\n'] [((r"x").data, (r"[P]").data)] := by
  decide

/-- A map that fixes every element of a list fixes the list. -/
theorem map_id_of_forall {α : Type} (f : α → α) (l : List α)
    (h : ∀ x ∈ l, f x = x) : l.map f = l := by
  induction l with
  | nil => rfl
  | cons x rest ih =>
    rw [List.map_cons, h x (List.mem_cons_self x rest),
      ih (fun y hy => h y (List.mem_cons_of_mem x hy))]

/-- C10: with a non-empty lookup the reconciler returns the newline-join
of the processed `splitlines` lines, so even when every line is left
alone the result is the input with `\r\n`/`\r` normalised to `\n` and
one final line terminator dropped; only the empty lookup returns the
input string itself. -/
theorem C10_reinsert_joins_lines (plan_text : Str) (tag_lookup : List (Str × Str)) :
    (tag_lookup = [] → reinsert_project_tags plan_text tag_lookup = plan_text) ∧
    (tag_lookup ≠ [] → reinsert_project_tags plan_text tag_lookup
        = joinLines ((splitLines plan_text).map (processLine tag_lookup))) ∧
    (tag_lookup ≠ [] → (∀ l ∈ splitLines plan_text, processLine tag_lookup l = l) →
      reinsert_project_tags plan_text tag_lookup
        = dropTrailingNewline (normalizeBreaks plan_text)) := by
  refine ⟨?_, ?_, ?_⟩
  · intro h
    simp [reinsert_project_tags, h]
  · intro h
    simp [reinsert_project_tags, h]
  · intro h hid
    rw [reinsert_project_tags, if_neg h,
      map_id_of_forall _ _ hid, joinLines_splitLines]

theorem C3_witness :
    makeTask samplePage ∈ (get_todo_tasks [samplePage]).actionable :=
  (C3_pending_excluded [samplePage] [] 0 0 0).2.2.2 samplePage
    (List.mem_singleton.mpr rfl) (by decide) (by decide)

theorem C4_witness :
    (annotateTask (eventEntries 0 [sampleEvent]) sampleTask).deadline_days.isSome
      = (annotateTask (eventEntries 0 [sampleEvent]) sampleTask).deadline_event.isSome :=
  (C4_deadline_fields_together 0 ⟨[sampleTask], []⟩ [sampleEvent] (by decide)).1
    (annotateTask (eventEntries 0 [sampleEvent]) sampleTask)
    (by simp [apply_meeting_deadlines, sortTasks, List.mergeSort])

theorem C5_witness :
    matchingEvents 0 [sampleEvent] sampleTask ≠ [] ∧
    (∃ d s, (annotateTask (eventEntries 0 [sampleEvent]) sampleTask).deadline_days = some d ∧
      (annotateTask (eventEntries 0 [sampleEvent]) sampleTask).deadline_event = some s ∧
      (∃ ev ∈ matchingEvents 0 [sampleEvent] sampleTask,
        ev.startDay - 0 = d ∧ ev.summary = s) ∧
      (∀ ev ∈ matchingEvents 0 [sampleEvent] sampleTask, d ≤ ev.startDay - 0)) :=
  ⟨by decide, (C5_annotator_attaches_soonest 0 [sampleEvent] sampleTask).1 (by decide)⟩

theorem C6_witness :
    next_task ⟨[sampleTask], []⟩ 36000 [] 0 36000 = NextResult.noTime :=
  (C6_session_deadline ⟨[sampleTask], []⟩ [] 0 36000 36000).2.2.2
    (by norm_num [availableMins, sessionDeadline, upcomingMeetings, List.mergeSort])

theorem C7_witness :
    next_task ⟨[sampleHighTask, sampleQuickTask], []⟩ 48000 [] 0 45600
      = NextResult.suggestion sampleQuickTask := by
  have hav : availableMins [] 0 45600 48000 = 40 := by
    norm_num [availableMins, sessionDeadline, upcomingMeetings, List.mergeSort]
    decide
  rw [(C7_selector_first_fit ⟨[sampleHighTask, sampleQuickTask], []⟩ [] 0 45600 48000
    (by rw [hav]; norm_num)).1, hav]
  decide

theorem C8_witness : processLine sampleLookup samplePlanLine = samplePlanLineTagged := by
  rw [(C8_reconciler_rewrite sampleLookup samplePlanLine).2.2
    (by decide) (by decide) (by decide)]
  decide

theorem C9_witness :
    reinsert_project_tags (reinsert_project_tags sampleUntaggedLine sampleLookup) sampleLookup
      = reinsert_project_tags sampleUntaggedLine sampleLookup :=
  (C9_reconciler_idempotent sampleUntaggedLine sampleLookup
    (by
      intro p hp
      simp only [sampleLookup, List.mem_singleton] at hp
      subst hp
      exact ⟨⟨(r"COSMOS-Web]").data, by decide⟩, by decide, by decide⟩)
    (by decide)).1

theorem C10_witness : reinsert_project_tags ['a', '\n'] sampleLookup = ['a'] := by
  rw [(C10_reinsert_joins_lines ['a', '\n'] sampleLookup).2.2 (by decide) (by decide)]
  decide

end Planner
